import Mathlib

/-!
Verification development for the tabular-data harvesting engine of
`iden_solution` (`sol.py`).

The Python source is embedded shallowly:

* a Python `dict` (a `Row`) is a `List (String × String)` built with
  dict-update semantics (`insertKV` / `buildDict`): re-assigning an existing
  key updates the value in place, a fresh key is appended;
* Python `str.strip()` is `pyStrip` (drop whitespace at both ends), and the
  code-point-lexicographic string comparison used by Python's `sorted` is
  `lexLeB` on the character lists; both are written over `String.data` so
  that they evaluate inside the kernel;
* `json.dumps(row, sort_keys=True)` is modelled up to the injective JSON
  string encoding by the key-sorted pair list (`fingerprint`);
* the DOM table read by `extract_table_rows` is modelled by `TableDom`:
  the `tr` elements inside `thead` (whose cells are `th` elements) and the
  `tr` elements inside `tbody` (whose cells are `td` elements), each row
  being its list of cell texts in document order.  This covers the plain
  table-markup path of the source (no ARIA `role` attributes present);
* the mutable closure state of `harvest_all_pages` (`all_rows`,
  `seen_hashes`) is the structure `Accum`, threaded explicitly;
* the environment driving pagination and scrolling is a `Site`: the state
  of the "next" affordance and the table content after `n` advances, and
  the table content observed at scroll round `r`.

Bounded `for _ in range(...)` loops become structural recursion on an
explicit fuel equal to the Python iteration cap.
-/

/-- Python `str.strip()`: drop whitespace characters from both ends. -/
def pyStrip (s : String) : String :=
  ⟨((s.data.dropWhile Char.isWhitespace).reverse.dropWhile Char.isWhitespace).reverse⟩

/-- Code-point-lexicographic comparison of character lists: the order in
which Python's `sorted` (hence `json.dumps(..., sort_keys=True)`) arranges
string keys. -/
def lexLeB : List Char → List Char → Bool
  | [], _ => true
  | _ :: _, [] => false
  | a :: as, b :: bs => if a < b then true else if b < a then false else lexLeB as bs

/-- A Python `dict` of strings, as its ordered list of key-value pairs. -/
abbrev Row := List (String × String)

/-- Python dict assignment `d[k] = v`: if `k` is present, the value is
updated at the key's original position; otherwise the pair is appended. -/
def insertKV : List (String × String) → String → String → List (String × String)
  | [], k, v => [(k, v)]
  | p :: rest, k, v => if p.1 = k then (k, v) :: rest else p :: insertKV rest k v

/-- The dict obtained by assigning the pairs left to right into an empty
dict (the meaning of a Python dict comprehension). -/
def buildDict (pairs : List (String × String)) : List (String × String) :=
  pairs.foldl (fun d p => insertKV d p.1 p.2) []

/-- Key order on pairs, used by `json.dumps(..., sort_keys=True)`. -/
def keyLe (a b : String × String) : Prop := lexLeB a.1.data b.1.data = true

instance : DecidableRel keyLe :=
  fun a b => inferInstanceAs (Decidable (lexLeB a.1.data b.1.data = true))

theorem lexLeB_total : ∀ as bs : List Char, lexLeB as bs = true ∨ lexLeB bs as = true := by
  intro as
  induction as with
  | nil => intro bs; left; rfl
  | cons a as ih =>
    intro bs
    cases bs with
    | nil => right; rfl
    | cons b bs =>
      rcases lt_trichotomy a b with h | h | h
      · left; simp [lexLeB, h]
      · subst h
        rcases ih bs with h' | h' <;> [left; right] <;> simp [lexLeB, h', lt_irrefl]
      · right; simp [lexLeB, h]

theorem lexLeB_trans :
    ∀ as bs cs : List Char, lexLeB as bs = true → lexLeB bs cs = true →
      lexLeB as cs = true := by
  intro as
  induction as with
  | nil => intro bs cs _ _; rfl
  | cons a as ih =>
    intro bs cs h1 h2
    cases bs with
    | nil => simp [lexLeB] at h1
    | cons b bs =>
      cases cs with
      | nil => simp [lexLeB] at h2
      | cons c cs =>
        simp only [lexLeB] at h1 h2 ⊢
        by_cases hab : a < b
        · simp only [hab, if_true] at h1
          by_cases hbc : b < c
          · simp [lt_trans hab hbc]
          · by_cases hcb : c < b
            · simp [hbc, hcb] at h2
            · have : b = c := le_antisymm (le_of_not_lt hcb) (le_of_not_lt hbc)
              subst this
              simp [hab]
        · by_cases hba : b < a
          · simp [hab, hba] at h1
          · have : a = b := le_antisymm (le_of_not_lt hba) (le_of_not_lt hab)
            subst this
            simp only [hab, if_false, lt_irrefl, if_neg (lt_irrefl a)] at h1 ⊢
            by_cases hac : a < c
            · simp [hac]
            · by_cases hca : c < a
              · simp [hac, hca] at h2
              · simp only [hac, hca, if_false] at h2 ⊢
                exact ih bs cs h1 h2

theorem lexLeB_antisymm :
    ∀ as bs : List Char, lexLeB as bs = true → lexLeB bs as = true → as = bs := by
  intro as
  induction as with
  | nil =>
    intro bs _ h2
    cases bs with
    | nil => rfl
    | cons b bs => simp [lexLeB] at h2
  | cons a as ih =>
    intro bs h1 h2
    cases bs with
    | nil => simp [lexLeB] at h1
    | cons b bs =>
      simp only [lexLeB] at h1 h2
      by_cases hab : a < b
      · simp [hab, asymm hab] at h2
      · by_cases hba : b < a
        · simp [hab, hba] at h1
        · have hE : a = b := le_antisymm (le_of_not_lt hba) (le_of_not_lt hab)
          subst hE
          simp only [lt_irrefl, if_neg (lt_irrefl a)] at h1 h2
          rw [ih bs h1 h2]

instance : IsTotal (String × String) keyLe := ⟨fun a b => lexLeB_total a.1.data b.1.data⟩

instance : IsTrans (String × String) keyLe :=
  ⟨fun _ _ _ h1 h2 => lexLeB_trans _ _ _ h1 h2⟩

theorem keyLe_antisymm_fst {a b : String × String} (h1 : keyLe a b) (h2 : keyLe b a) :
    a.1 = b.1 := by
  have := lexLeB_antisymm _ _ h1 h2
  cases hA : a.1 with
  | mk da =>
    cases hB : b.1 with
    | mk db => simp_all

/-- `json.dumps(row, sort_keys=True)` (line 225), modelled up to the
injective JSON string encoding: the row's pairs sorted by key. -/
def fingerprint (row : Row) : List (String × String) :=
  List.insertionSort keyLe row

/-- The DOM table located by `extract_table_rows`: `thead` rows (cells are
`th` elements) and `tbody` rows (cells are `td` elements), each row given
as its list of cell texts in document order. -/
structure TableDom where
  theadRows : List (List String)
  tbodyRows : List (List String)
deriving DecidableEq

/-- Texts returned by `table.locator("thead tr th, thead th, ...").all_text_contents()`
(line 157): all header-cell texts in document order. -/
def headerTexts (t : TableDom) : List String :=
  t.theadRows.flatten

/-- The elements matched by the `tr` locator (and equally by the union
locator `"tbody tr, tr"` of line 180): every table row in document order. -/
def allTr (t : TableDom) : List (List String) :=
  t.theadRows ++ t.tbodyRows

/-- Cell texts of `table.locator("tbody tr, tr").nth(r)` (line 180); an
out-of-range `nth` yields no elements, hence no texts. -/
def trCells (t : TableDom) (r : Nat) : List String :=
  (allTr t).getD r []

/-- The comprehension `[h.strip() or f"col_{i}" for i, h in enumerate(hs)]`
(lines 158 and 166): strip each text, replacing an empty result by a
synthesized positional name. -/
def synthHeaders (texts : List String) : List String :=
  texts.enum.map fun p => if pyStrip p.2 = "" then "col_" ++ toString p.1 else pyStrip p.2

/-- The header list derived at lines 156-172: header-cell texts when the
semantic header area has any, otherwise the first `tr`'s cell texts
(the first-row fallback of lines 163-167). -/
def headersOf (t : TableDom) : List String :=
  if headerTexts t = [] then synthHeaders (trCells t 0)
  else synthHeaders (headerTexts t)

/-- `row_count` of lines 175-177: the count of the `"tbody tr, ..."`
locator, or of the plain `tr` locator when that is zero. -/
def rowCount (t : TableDom) : Nat :=
  if t.tbodyRows.length ≠ 0 then t.tbodyRows.length else (allTr t).length

/-- The pad/truncate normalization of lines 182-187. -/
def normalizeCells (headers cells : List String) : List String :=
  if headers ≠ [] ∧ cells.length ≠ headers.length then
    if cells.length < headers.length then
      cells ++ List.replicate (headers.length - cells.length) ""
    else cells.take headers.length
  else cells

/-- The row dict built at lines 188-191: keyed by the headers when any
were derived, otherwise by synthesized positional names. -/
def mkRow (headers cells0 : List String) : Row :=
  let cells := normalizeCells headers cells0
  if headers = [] then
    buildDict ((List.range cells.length).map
      fun i => ("col_" ++ toString i, pyStrip (cells.getD i "")))
  else
    buildDict ((List.range headers.length).map
      fun i => (headers.getD i "", if i < cells.length then pyStrip (cells.getD i "") else ""))

/-- `extract_table_rows` (lines 139-194) applied to a located, visible
table.  Header derivation always leaves `row_start_idx = 1` (the `except`
arms of lines 159 and 168 are unreachable for a pure DOM read), so the
data loop of line 179 runs `r` over `range(1, row_count)`. -/
def extract_table_rows (t : TableDom) : List Row :=
  (List.range' 1 (rowCount t - 1)).map fun r => mkRow (headersOf t) (trCells t r)

/-- The closure state of `harvest_all_pages` (lines 218-219): the result
sequence and the set of seen fingerprints. -/
structure Accum where
  all_rows : List Row
  seen_hashes : List (List (String × String))
deriving DecidableEq

/-- The body of the `for row in new_rows` loop of lines 223-228, for one
incoming row. -/
def addStep (a : Accum) (row : Row) : Accum :=
  if fingerprint row ∈ a.seen_hashes then a
  else { all_rows := a.all_rows ++ [row], seen_hashes := fingerprint row :: a.seen_hashes }

/-- `add_rows` (lines 221-228): fold the per-row step over the incoming
rows; the Python function body has no `return` statement, so the call's
value is `None` (modelled by the `none` component). -/
def add_rows (acc : Accum) (new_rows : List Row) : Accum × Option Int :=
  (new_rows.foldl addStep acc, none)

/-- The number of incoming rows whose fingerprint is not already seen when
that row is processed (counting fingerprints recorded earlier in the same
batch).  This is the count the specification says `merge` reports. -/
def countNew (seen : List (List (String × String))) : List Row → Nat
  | [] => 0
  | r :: rest =>
    if fingerprint r ∈ seen then countNew seen rest
    else countNew (fingerprint r :: seen) rest + 1

/-- The observable state of the pagination "next" affordance on one page:
how many elements the `SEL_PAGINATION_NEXT` locator matches, whether the
first match is disabled, how many elements the generic disabled-marker
locator matches under it, and whether it is visible. -/
structure PageAffordance where
  count : Nat
  disabled : Bool
  markerCount : Nat
  visible : Bool
deriving DecidableEq

/-- `has_next_page` (lines 196-209): false when no "next" affordance
exists, when it is disabled, or when a generic disabled marker matches
under it; otherwise its visibility. -/
def has_next_page (p : PageAffordance) : Bool :=
  if p.count = 0 then false
  else if p.disabled then false
  else if p.markerCount > 0 then false
  else p.visible

/-- The environment one harvest runs against: the "next" affordance and
the table content on the page reached after `n` advances, the number of
scrollable container candidates present (line 247; they only choose the
element to scroll, whose effect is folded into `scrollTable`), and the
table content observed at scroll round `r`. -/
structure Site where
  page : Nat → PageAffordance
  table : Nat → TableDom
  containerCount : Nat
  scrollTable : Nat → TableDom

/-- The pagination loop of lines 232-240, with the 200-iteration safety
cap as fuel: at page `i`, if `has_next_page` holds, advance, read the new
page, merge, and repeat; otherwise break.  Returns the accumulator, the
`paginated` flag and the number of `go_next_page` calls performed (the
page index reached, counting from 0). -/
def pagLoop (site : Site) : Nat → Nat → Accum → Bool → Accum × Bool × Nat
  | 0, i, acc, p => (acc, p, i)
  | fuel + 1, i, acc, p =>
    if has_next_page (site.page i) then
      pagLoop site fuel (i + 1) (add_rows acc (extract_table_rows (site.table (i + 1)))).1 true
    else (acc, p, i)

/-- The accumulator after the merge at the top of scroll round `r`
(line 253). -/
def scrollMerge (site : Site) (r : Nat) (acc : Accum) : Accum :=
  (add_rows acc (extract_table_rows (site.scrollTable r))).1

/-- The `idle_rounds` value after the comparison of lines 255-258:
incremented when the accumulated total equals the previous round's,
reset to zero otherwise. -/
def scrollIdle (site : Site) (r : Nat) (prev : Int) (idle : Nat) (acc : Accum) : Nat :=
  if ((scrollMerge site r acc).all_rows.length : Int) = prev then idle + 1 else 0

/-- One scroll-phase round and its sequel, with the 100-iteration safety
cap as fuel.  Lines 252-258 give the top of each round: re-read, merge
(`scrollMerge`), compare the accumulated total with the previous round's
and update the idle counter (`scrollIdle`).  Modelled from the spec: the
source file ends at line 258, so the rest of the loop body is taken from
the design document (§4.5, §8) — exit once the idle-round count reaches
the threshold of 2 consecutive no-growth rounds, otherwise perform one
scroll increment and continue with the updated previous count.  Returns
the accumulator and the number of rounds executed (rounds are numbered
from 1). -/
def scrollLoop (site : Site) : Nat → Nat → Int → Nat → Accum → Accum × Nat
  | 0, r, _, _, acc => (acc, r - 1)
  | fuel + 1, r, prev, idle, acc =>
    if 2 ≤ scrollIdle site r prev idle acc then (scrollMerge site r acc, r)
    else scrollLoop site fuel (r + 1) ((scrollMerge site r acc).all_rows.length : Int)
      (scrollIdle site r prev idle acc) (scrollMerge site r acc)

/-- The accumulator after the first `j` scroll-phase reads have been
merged (no termination logic): the reference against which the per-round
totals of the scroll loop are stated. -/
def scrollAccum (site : Site) (acc0 : Accum) : Nat → Accum
  | 0 => acc0
  | j + 1 => (add_rows (scrollAccum site acc0 j) (extract_table_rows (site.scrollTable (j + 1)))).1

/-- The accumulated-row-count total after `j` scroll-phase reads. -/
def scrollTotals (site : Site) (acc0 : Accum) (j : Nat) : Nat :=
  (scrollAccum site acc0 j).all_rows.length

/-- The accumulator after the initial read and merge of line 231. -/
def initAccum (site : Site) : Accum :=
  (add_rows ⟨[], []⟩ (extract_table_rows (site.table 0))).1

/-- The state after the pagination loop (lines 232-240): accumulator,
`paginated` flag and advance count. -/
def pagResult (site : Site) : Accum × Bool × Nat :=
  pagLoop site 200 0 (initAccum site) false

/-- The state after the scroll loop (line 250 onwards), entered with
`previous_count = -1` and `idle_rounds = 0` on the accumulator the
pagination phase left behind. -/
def scrollResult (site : Site) : Accum × Nat :=
  scrollLoop site 100 1 (-1) 0 (pagResult site).1

/-- `harvest_all_pages` (lines 216-258 and the spec-modelled scroll-loop
tail): initial read and merge, the pagination loop, then the early return
of lines 242-243 when pagination was detected, otherwise the scroll
phase.  Returns the harvested rows, the `paginated` flag, the number of
advances and the number of scroll rounds executed. -/
def harvest_all_pages (site : Site) : List Row × Bool × Nat × Nat :=
  if (pagResult site).2.1 then ((pagResult site).1.all_rows, true, (pagResult site).2.2, 0)
  else ((scrollResult site).1.all_rows, false, (pagResult site).2.2, (scrollResult site).2)

/-! ### Helper lemmas about dict building -/

theorem insertKV_of_not_mem (d : List (String × String)) (k v : String)
    (h : k ∉ d.map Prod.fst) : insertKV d k v = d ++ [(k, v)] := by
  induction d with
  | nil => rfl
  | cons p rest ih =>
    simp only [List.map_cons, List.mem_cons, not_or] at h
    have hne : p.1 ≠ k := fun hpk => h.1 hpk.symm
    simp only [insertKV, if_neg hne, List.cons_append, List.cons.injEq, true_and]
    exact ih h.2

theorem foldl_insertKV_of_nodup :
    ∀ (pairs d : List (String × String)), ((d ++ pairs).map Prod.fst).Nodup →
      pairs.foldl (fun d p => insertKV d p.1 p.2) d = d ++ pairs := by
  intro pairs
  induction pairs with
  | nil => intro d _; simp
  | cons p rest ih =>
    intro d hnd
    have hk : p.1 ∉ d.map Prod.fst := by
      simp only [List.map_append, List.nodup_append] at hnd
      intro hmem
      exact hnd.2.2 hmem (by simp)
    have hstep : insertKV d p.1 p.2 = d ++ [p] := by
      simpa using insertKV_of_not_mem d p.1 p.2 hk
    have hnd' : (((d ++ [p]) ++ rest).map Prod.fst).Nodup := by
      simpa using hnd
    calc (p :: rest).foldl (fun d q => insertKV d q.1 q.2) d
        = rest.foldl (fun d q => insertKV d q.1 q.2) (d ++ [p]) := by
          simp [List.foldl_cons, hstep]
      _ = (d ++ [p]) ++ rest := ih (d ++ [p]) hnd'
      _ = d ++ p :: rest := by simp

theorem buildDict_of_nodup (pairs : List (String × String))
    (h : (pairs.map Prod.fst).Nodup) : buildDict pairs = pairs := by
  simpa [buildDict] using foldl_insertKV_of_nodup pairs [] (by simpa using h)

theorem map_getD_range {α : Type} (l : List α) (d : α) :
    (List.range l.length).map (fun i => l.getD i d) = l := by
  apply List.ext_getElem
  · simp
  · intro n h1 h2
    simp only [List.getElem_map, List.getElem_range]
    exact List.getD_eq_getElem l d h2

/-! ### Characterizations of `extract_table_rows` -/

theorem mkRow_length (headers cells : List String) (hne : headers ≠ [])
    (hnd : headers.Nodup) : (mkRow headers cells).length = headers.length := by
  simp only [mkRow, if_neg hne]
  set cells' := normalizeCells headers cells with hc
  set pairs := (List.range headers.length).map
    (fun i => (headers.getD i "", if i < cells'.length then pyStrip (cells'.getD i "") else ""))
    with hp
  have hfst : pairs.map Prod.fst = headers := by
    rw [hp, List.map_map]
    exact map_getD_range headers ""
  rw [buildDict_of_nodup pairs (by rw [hfst]; exact hnd)]
  have := congrArg List.length hfst
  simpa using this

theorem headersOf_thead (t : TableDom) (h : List String) (hthead : t.theadRows = [h])
    (hne : h ≠ []) : headersOf t = synthHeaders h := by
  have hht : headerTexts t = h := by simp [headerTexts, hthead]
  simp [headersOf, hht, hne]

theorem extract_thead (t : TableDom) (h : List String) (hthead : t.theadRows = [h])
    (hne : h ≠ []) :
    extract_table_rows t = t.tbodyRows.dropLast.map (mkRow (synthHeaders h)) := by
  have hh := headersOf_thead t h hthead hne
  have hall : allTr t = h :: t.tbodyRows := by simp [allTr, hthead]
  rcases hb : t.tbodyRows with _ | ⟨c, body⟩
  · have : rowCount t = 1 := by simp [rowCount, hb, hall, hthead]
    simp [extract_table_rows, this, hb]
  · have hrc : rowCount t = t.tbodyRows.length := by
      simp [rowCount, hb]
    rw [← hb]
    apply List.ext_getElem
    · simp [extract_table_rows, hrc]
    · intro n h1 h2
      have hlen : n < t.tbodyRows.length - 1 := by
        simpa [extract_table_rows, hrc] using h1
      have hlt : n < t.tbodyRows.length := lt_of_lt_of_le hlen (Nat.sub_le _ _)
      simp only [extract_table_rows, hrc, List.getElem_map, List.getElem_range',
        List.getElem_dropLast, hh]
      congr 1
      have : trCells t (1 + 1 * n) = t.tbodyRows.getD n [] := by
        simp [trCells, hall, Nat.one_mul, Nat.add_comm, List.getD_cons_succ]
      rw [this]
      exact List.getD_eq_getElem _ _ hlt

theorem headersOf_fallback (t : TableDom) (hthead : t.theadRows = []) :
    headersOf t = synthHeaders (trCells t 0) := by
  have hht : headerTexts t = [] := by simp [headerTexts, hthead]
  simp [headersOf, hht]

theorem extract_fallback (t : TableDom) (hthead : t.theadRows = []) :
    extract_table_rows t = (t.tbodyRows.drop 1).map (mkRow (headersOf t)) := by
  have hall : allTr t = t.tbodyRows := by simp [allTr, hthead]
  have hrc : rowCount t = t.tbodyRows.length := by
    rcases hb : t.tbodyRows with _ | ⟨c, body⟩ <;> simp [rowCount, hb, hall, hthead]
  apply List.ext_getElem
  · simp [extract_table_rows, hrc]
  · intro n h1 h2
    have hlen : n < t.tbodyRows.length - 1 := by
      simpa [extract_table_rows, hrc] using h1
    have hlt : 1 + n < t.tbodyRows.length := by omega
    simp only [extract_table_rows, hrc, List.getElem_map, List.getElem_range',
      List.getElem_drop]
    congr 1
    have : trCells t (1 + 1 * n) = t.tbodyRows.getD (1 + n) [] := by
      simp [trCells, hall, Nat.one_mul]
    rw [this]
    exact List.getD_eq_getElem _ _ hlt

/-! ### Claims C1, C7, C10 -/

/-- C1 (counterexample): the claim `len(row) == len(headers)` for every
returned row fails as stated.  A table whose two header cells carry the
same text "a" derives the header list `["a", "a"]` of length 2, but the
row dict built from it collapses the duplicate key, so the returned row
has a single key-value pair. -/
theorem row_length_ne_headers_counterexample :
    headersOf ⟨[["a", "a"]], [["1", "2"], ["3", "4"]]⟩ ≠ [] ∧
      ∃ row ∈ extract_table_rows ⟨[["a", "a"]], [["1", "2"], ["3", "4"]]⟩,
        row.length ≠ (headersOf ⟨[["a", "a"]], [["1", "2"], ["3", "4"]]⟩).length := by
  decide

/-- C1 (amended): for every table read in which a non-empty header list
was derived, provided the derived header names are pairwise distinct,
every returned row has exactly as many key-value pairs as there are
headers (short rows are padded with empty strings, long rows truncated,
and the dict keyed by the headers then has one pair per header). -/
theorem row_length_eq_headers_of_nodup (t : TableDom)
    (hne : headersOf t ≠ []) (hnd : (headersOf t).Nodup) :
    ∀ row ∈ extract_table_rows t, row.length = (headersOf t).length := by
  intro row hrow
  simp only [extract_table_rows, List.mem_map] at hrow
  obtain ⟨r, _, hr⟩ := hrow
  rw [← hr]
  exact mkRow_length _ _ hne hnd

/-- Witness for `row_length_eq_headers_of_nodup` at a concrete two-column
table with a short and a long body row. -/
theorem row_length_eq_headers_witness :
    headersOf ⟨[["name", "price"]], [["A"], ["B", "2", "zz"], ["X", "Y"]]⟩ ≠ [] ∧
      (headersOf ⟨[["name", "price"]], [["A"], ["B", "2", "zz"], ["X", "Y"]]⟩).Nodup ∧
      ∀ row ∈ extract_table_rows ⟨[["name", "price"]], [["A"], ["B", "2", "zz"], ["X", "Y"]]⟩,
        row.length =
          (headersOf ⟨[["name", "price"]], [["A"], ["B", "2", "zz"], ["X", "Y"]]⟩).length :=
  ⟨by decide, by decide,
    row_length_eq_headers_of_nodup ⟨[["name", "price"]], [["A"], ["B", "2", "zz"], ["X", "Y"]]⟩
      (by decide) (by decide)⟩

/-- C7: header fallback consumes exactly one row.  With no semantic header
area, the header keys are the first `tr`'s cell texts and the returned
data rows start at index 1 (the consumed first row is excluded); with a
single non-empty header row present, the keys come from the header area
and no data row is consumed as a header — the returned rows are built
from body rows only (the trailing body row being dropped is the distinct
off-by-one recorded by claim C10). -/
theorem header_fallback_consumes_one_row (t : TableDom) :
    (t.theadRows = [] →
      headersOf t = synthHeaders (trCells t 0) ∧
        extract_table_rows t = (t.tbodyRows.drop 1).map (mkRow (headersOf t))) ∧
    (∀ h, t.theadRows = [h] → h ≠ [] →
      headersOf t = synthHeaders h ∧
        extract_table_rows t = t.tbodyRows.dropLast.map (mkRow (synthHeaders h))) :=
  ⟨fun hthead => ⟨headersOf_fallback t hthead, extract_fallback t hthead⟩,
   fun h hthead hne => ⟨headersOf_thead t h hthead hne, extract_thead t h hthead hne⟩⟩

/-- Witness for `header_fallback_consumes_one_row`: a header-less table
whose first body row becomes the header, and a table with a real header
row. -/
theorem header_fallback_witness :
    (headersOf ⟨[], [["name"], ["A"], ["B"]]⟩ =
        synthHeaders (trCells ⟨[], [["name"], ["A"], ["B"]]⟩ 0) ∧
      extract_table_rows ⟨[], [["name"], ["A"], ["B"]]⟩ =
        ([["A"], ["B"]] : List (List String)).map
          (mkRow (headersOf ⟨[], [["name"], ["A"], ["B"]]⟩))) ∧
    (headersOf ⟨[["name"]], [["A"], ["B"]]⟩ = synthHeaders ["name"] ∧
      extract_table_rows ⟨[["name"]], [["A"], ["B"]]⟩ =
        ([["A"]] : List (List String)).map (mkRow (synthHeaders ["name"]))) :=
  ⟨(header_fallback_consumes_one_row ⟨[], [["name"], ["A"], ["B"]]⟩).1 rfl,
   (header_fallback_consumes_one_row ⟨[["name"]], [["A"], ["B"]]⟩).2 ["name"] rfl (by decide)⟩

/-- C10: when headers are read from the `thead`, the row count is taken
from the `tbody tr` locator but rows are indexed from position 1 over the
locator that also matches the header row; for one `thead` row and `n`
`tbody` rows the returned rows are exactly the first `n - 1` body rows —
the last body row is never read. -/
theorem last_tbody_row_never_read (t : TableDom) (h : List String)
    (hthead : t.theadRows = [h]) (hne : h ≠ []) :
    extract_table_rows t = t.tbodyRows.dropLast.map (mkRow (synthHeaders h)) ∧
      (extract_table_rows t).length = t.tbodyRows.length - 1 := by
  have he := extract_thead t h hthead hne
  exact ⟨he, by simp [he]⟩

/-- Witness for `last_tbody_row_never_read`: three body rows, two rows
returned, the third body row's content absent from the result. -/
theorem last_tbody_row_never_read_witness :
    extract_table_rows ⟨[["k"]], [["1"], ["2"], ["3"]]⟩ =
        ([["1"], ["2"]] : List (List String)).map (mkRow (synthHeaders ["k"])) ∧
      (extract_table_rows ⟨[["k"]], [["1"], ["2"], ["3"]]⟩).length = 3 - 1 :=
  last_tbody_row_never_read ⟨[["k"]], [["1"], ["2"], ["3"]]⟩ ["k"] rfl (by decide)

/-! ### Helper lemmas about the deduplicating accumulator -/

theorem seen_mono (R : List Row) :
    ∀ (a : Accum) (fp : List (String × String)), fp ∈ a.seen_hashes →
      fp ∈ (R.foldl addStep a).seen_hashes := by
  induction R with
  | nil => intro a fp h; exact h
  | cons r rest ih =>
    intro a fp h
    simp only [List.foldl_cons]
    apply ih
    unfold addStep
    split
    · exact h
    · exact List.mem_cons_of_mem _ h

theorem fp_mem_after (R : List Row) :
    ∀ (a : Accum) (r : Row), r ∈ R → fingerprint r ∈ (R.foldl addStep a).seen_hashes := by
  induction R with
  | nil => intro a r h; exact absurd h (List.not_mem_nil r)
  | cons q rest ih =>
    intro a r h
    rcases List.mem_cons.mp h with rfl | hrest
    · simp only [List.foldl_cons]
      apply seen_mono
      unfold addStep
      split
      · assumption
      · exact List.mem_cons_self _ _
    · exact ih _ r hrest

theorem foldl_addStep_of_seen (R : List Row) :
    ∀ a : Accum, (∀ r ∈ R, fingerprint r ∈ a.seen_hashes) → R.foldl addStep a = a := by
  induction R with
  | nil => intro a _; rfl
  | cons q rest ih =>
    intro a h
    have hq : addStep a q = a := by
      unfold addStep
      rw [if_pos (h q (List.mem_cons_self _ _))]
    simp only [List.foldl_cons, hq]
    exact ih a fun r hr => h r (List.mem_cons_of_mem _ hr)

theorem foldl_addStep_idem (R : List Row) (a : Accum) :
    R.foldl addStep (R.foldl addStep a) = R.foldl addStep a :=
  foldl_addStep_of_seen R _ fun r hr => fp_mem_after R a r hr

theorem foldl_addStep_append_only (R : List Row) :
    ∀ a : Accum, ∃ tail, (R.foldl addStep a).all_rows = a.all_rows ++ tail := by
  induction R with
  | nil => intro a; exact ⟨[], by simp⟩
  | cons q rest ih =>
    intro a
    simp only [List.foldl_cons]
    unfold addStep
    split
    · exact ih a
    · obtain ⟨tl, htl⟩ := ih ⟨a.all_rows ++ [q], fingerprint q :: a.seen_hashes⟩
      exact ⟨q :: tl, by simpa using htl⟩

theorem foldl_addStep_length (R : List Row) :
    ∀ a : Accum, (R.foldl addStep a).all_rows.length =
      a.all_rows.length + countNew a.seen_hashes R := by
  induction R with
  | nil => intro a; simp [countNew]
  | cons q rest ih =>
    intro a
    simp only [List.foldl_cons, countNew]
    by_cases hq : fingerprint q ∈ a.seen_hashes
    · rw [show addStep a q = a from by simp [addStep, hq], ih a, if_pos hq]
    · rw [show addStep a q =
          (⟨a.all_rows ++ [q], fingerprint q :: a.seen_hashes⟩ : Accum) from by
            simp [addStep, hq],
        ih ⟨a.all_rows ++ [q], fingerprint q :: a.seen_hashes⟩, if_neg hq]
      simp only [List.length_append, List.length_cons, List.length_nil]
      omega

/-- The fingerprint-closure invariant the accumulator maintains: the
result rows carry pairwise distinct fingerprints, and every fingerprint
in the result is recorded in the seen-set. -/
def AccumInv (a : Accum) : Prop :=
  (a.all_rows.map fingerprint).Nodup ∧
    ∀ fp ∈ a.all_rows.map fingerprint, fp ∈ a.seen_hashes

theorem accumInv_addStep {a : Accum} (h : AccumInv a) (row : Row) :
    AccumInv (addStep a row) := by
  unfold addStep
  split
  · exact h
  · rename_i hnm
    constructor
    · simp only [List.map_append, List.map_cons, List.map_nil, List.nodup_append]
      refine ⟨h.1, List.nodup_singleton _, ?_⟩
      intro fp hfp
      simp only [List.mem_singleton]
      intro heq
      exact hnm (heq ▸ h.2 fp hfp)
    · intro fp hfp
      simp only [List.map_append, List.map_cons, List.map_nil, List.mem_append,
        List.mem_singleton] at hfp
      rcases hfp with hfp | rfl
      · exact List.mem_cons_of_mem _ (h.2 fp hfp)
      · exact List.mem_cons_self _ _

theorem accumInv_foldl (R : List Row) :
    ∀ a : Accum, AccumInv a → AccumInv (R.foldl addStep a) := by
  induction R with
  | nil => intro a h; exact h
  | cons q rest ih => intro a h; exact ih _ (accumInv_addStep h q)

/-- The accumulator state after merging a list of row batches in order,
starting from the empty state of lines 218-219. -/
def mergeBatches (batches : List (List Row)) : Accum :=
  batches.foldl (fun a R => (add_rows a R).1) ⟨[], []⟩

theorem accumInv_mergeBatches (batches : List (List Row)) : AccumInv (mergeBatches batches) := by
  suffices h : ∀ a : Accum, AccumInv a →
      AccumInv (batches.foldl (fun a R => (add_rows a R).1) a) from
    h ⟨[], []⟩ ⟨List.nodup_nil, by simp⟩
  induction batches with
  | nil => intro a h; exact h
  | cons R rest ih => intro a h; exact ih _ (accumInv_foldl R a h)

/-- Two key-sorted pair lists that are permutations of each other and
have pairwise distinct keys are equal: key-sorting with distinct keys has
a unique result. -/
theorem sorted_nodupkeys_perm_eq :
    ∀ l1 l2 : List (String × String), l1.Perm l2 → l1.Sorted keyLe → l2.Sorted keyLe →
      (l1.map Prod.fst).Nodup → l1 = l2 := by
  intro l1
  induction l1 with
  | nil =>
    intro l2 hp _ _ _
    exact (hp.symm.eq_nil).symm
  | cons a t ih =>
    intro l2 hp hs1 hs2 hnd
    cases l2 with
    | nil => exact absurd hp.eq_nil (by simp)
    | cons b t2 =>
      obtain ⟨rel1, hs1'⟩ := List.sorted_cons.mp hs1
      obtain ⟨rel2, hs2'⟩ := List.sorted_cons.mp hs2
      have hab : a ∈ b :: t2 := hp.subset (List.mem_cons_self a t)
      have hba : b ∈ a :: t := hp.symm.subset (List.mem_cons_self b t2)
      have hnd1 : a.1 ∉ t.map Prod.fst := by
        have := hnd
        simp only [List.map_cons, List.nodup_cons] at this
        exact this.1
      have haeqb : a = b := by
        rcases List.mem_cons.mp hab with heq | hat2
        · exact heq
        · rcases List.mem_cons.mp hba with heq | hbt
          · exact heq.symm
          · exfalso
            have h1 : keyLe a b := rel1 b hbt
            have h2 : keyLe b a := rel2 a hat2
            have hk : a.1 = b.1 := keyLe_antisymm_fst h1 h2
            exact hnd1 (hk ▸ List.mem_map_of_mem Prod.fst hbt)
      subst haeqb
      have hpt : t.Perm t2 := hp.cons_inv
      have hnd' : (t.map Prod.fst).Nodup := by
        have := hnd
        simp only [List.map_cons, List.nodup_cons] at this
        exact this.2
      rw [ih t2 hpt hs1' hs2' hnd']

/-! ### Claims C2, C3, C8, C9 -/

/-- C2: the deduplicating accumulator is idempotent — merging the same
batch of rows a second time leaves the whole accumulated state (the row
sequence, hence also its length, and the seen-set) unchanged. -/
theorem add_rows_idempotent (acc : Accum) (R : List Row) :
    (add_rows (add_rows acc R).1 R).1 = (add_rows acc R).1 :=
  foldl_addStep_idem R acc

/-- C8 (counterexample): the claim that two rows with the same key-value
pairs in different key insertion orders receive distinct fingerprints is
false: `json.dumps(..., sort_keys=True)` sorts the keys, so the two
orders of the same pairs produce the same fingerprint. -/
theorem fingerprint_order_counterexample :
    ([("a", "1"), ("b", "2")] : Row) ≠ [("b", "2"), ("a", "1")] ∧
      fingerprint [("a", "1"), ("b", "2")] = fingerprint [("b", "2"), ("a", "1")] := by
  decide

/-- C8 (amended): the fingerprint is a total, deterministic, but
order-insensitive hash of a row's key-value pairs: rows with identical
keys and values in identical order always agree (it is a function of the
pair list), and rows holding the same pairs in different key insertion
orders also receive identical fingerprints, because the keys are sorted
before hashing. -/
theorem fingerprint_insensitive_to_key_order (r1 r2 : Row)
    (hnd : (r1.map Prod.fst).Nodup) (hperm : r1.Perm r2) :
    fingerprint r1 = fingerprint r2 := by
  have hp : (fingerprint r1).Perm (fingerprint r2) :=
    ((List.perm_insertionSort keyLe r1).trans hperm).trans
      (List.perm_insertionSort keyLe r2).symm
  have hnd1 : ((fingerprint r1).map Prod.fst).Nodup :=
    (((List.perm_insertionSort keyLe r1).map Prod.fst).nodup_iff).mpr hnd
  exact sorted_nodupkeys_perm_eq _ _ hp
    (List.sorted_insertionSort keyLe r1) (List.sorted_insertionSort keyLe r2) hnd1

/-- Witness for `fingerprint_insensitive_to_key_order` at the two
insertion orders of the pairs `a ↦ 1`, `b ↦ 2`. -/
theorem fingerprint_insensitive_witness :
    (([("a", "1"), ("b", "2")] : Row).map Prod.fst).Nodup ∧
      ([("a", "1"), ("b", "2")] : Row).Perm [("b", "2"), ("a", "1")] ∧
      fingerprint [("a", "1"), ("b", "2")] = fingerprint [("b", "2"), ("a", "1")] :=
  ⟨by decide, by decide,
    fingerprint_insensitive_to_key_order _ _ (by decide) (by decide)⟩

/-- C9 (counterexample): `add_rows` does not return the number of rows it
added — its body has no `return` statement, so a call that appends one
row still returns `None` rather than the integer 1. -/
theorem add_rows_returns_none_counterexample :
    (add_rows ⟨[], []⟩ [[("name", "A")]]).1.all_rows.length = 1 ∧
      (add_rows ⟨[], []⟩ [[("name", "A")]]).2 = none := by
  decide

/-- C9 (amended): `add_rows` returns `None`, and the number of rows the
call appends to the result sequence equals the number of incoming rows
whose fingerprint was not already in the seen-set when that row was
processed (fingerprints recorded earlier in the same call included). -/
theorem add_rows_growth_eq_countNew (acc : Accum) (R : List Row) :
    (add_rows acc R).2 = none ∧
      (add_rows acc R).1.all_rows.length = acc.all_rows.length + countNew acc.seen_hashes R :=
  ⟨rfl, foldl_addStep_length R acc⟩

/-- The two-page environment of the specification's pagination scenario:
page 1 renders row `A`, page 2 re-renders `A` and adds `B`, and
`has_next_page` holds only on page 1.  The body rows are duplicated so
that, under the off-by-one of claim C10 (the last `tbody` row is never
read), the extracted rows are exactly those the scenario prescribes. -/
def scenarioSite : Site where
  page := fun i => ⟨1, decide (1 ≤ i), 0, true⟩
  table := fun i =>
    if i = 0 then ⟨[["name", "price"]], [["A", "1"], ["A", "1"]]⟩
    else ⟨[["name", "price"]], [["A", "1"], ["B", "2"], ["B", "2"]]⟩
  containerCount := 0
  scrollTable := fun _ => ⟨[], []⟩

/-- C3: invariants of the accumulated result — (1) after any sequence of
merge calls starting from the empty accumulator, no two result rows share
a fingerprint; (2) each merge only appends at the end of the sequence
(never reorders or prunes), so rows stay in first-seen order; (3) in the
two-page scenario where page 2 re-renders page 1's row `A` and adds `B`,
the harvest returns exactly the rows `A` then `B`, with no duplicate. -/
theorem accumulated_result_invariants :
    (∀ batches : List (List Row), ((mergeBatches batches).all_rows.map fingerprint).Nodup) ∧
      (∀ (acc : Accum) (R : List Row),
        ∃ tail, (add_rows acc R).1.all_rows = acc.all_rows ++ tail) ∧
      (harvest_all_pages scenarioSite).1 =
        [[("name", "A"), ("price", "1")], [("name", "B"), ("price", "2")]] :=
  ⟨fun batches => (accumInv_mergeBatches batches).1,
   fun acc R => foldl_addStep_append_only R acc,
   by decide⟩

/-! ### Helper lemmas about the pagination loop -/

theorem pagLoop_advances (site : Site) (N : Nat)
    (htrue : ∀ j, j < N - 1 → has_next_page (site.page j) = true)
    (hfalse : has_next_page (site.page (N - 1)) = false) :
    ∀ fuel i acc p, i ≤ N - 1 → N - 1 - i ≤ fuel →
      (pagLoop site fuel i acc p).2.2 = N - 1 := by
  intro fuel
  induction fuel with
  | zero =>
    intro i acc p hi hfuel
    have : i = N - 1 := by omega
    simpa [pagLoop] using this
  | succ fuel ih =>
    intro i acc p hi hfuel
    by_cases heq : i = N - 1
    · subst heq
      simp [pagLoop, hfalse]
    · have hlt : i < N - 1 := by omega
      simp only [pagLoop, htrue i hlt, if_true]
      exact ih (i + 1) _ true (by omega) (by omega)

theorem pagLoop_succ_true (site : Site) (fuel i : Nat) (acc : Accum) (p : Bool)
    (h : has_next_page (site.page i) = true) :
    pagLoop site (fuel + 1) i acc p =
      pagLoop site fuel (i + 1) (add_rows acc (extract_table_rows (site.table (i + 1)))).1
        true := by
  show (if has_next_page (site.page i) = true then
      pagLoop site fuel (i + 1) (add_rows acc (extract_table_rows (site.table (i + 1)))).1 true
    else (acc, p, i)) =
    pagLoop site fuel (i + 1) (add_rows acc (extract_table_rows (site.table (i + 1)))).1 true
  exact if_pos h

theorem pagLoop_true_persists (site : Site) :
    ∀ fuel i acc, (pagLoop site fuel i acc true).2.1 = true := by
  intro fuel
  induction fuel with
  | zero => intro i acc; rfl
  | succ fuel ih =>
    intro i acc
    by_cases h : has_next_page (site.page i) = true
    · simp only [pagLoop, h, if_true]
      exact ih (i + 1) _
    · simp only [pagLoop]
      rw [if_neg h]

theorem pagLoop_adv_le (site : Site) :
    ∀ fuel i acc p, (pagLoop site fuel i acc p).2.2 ≤ i + fuel := by
  intro fuel
  induction fuel with
  | zero => intro i acc p; simp [pagLoop]
  | succ fuel ih =>
    intro i acc p
    by_cases h : has_next_page (site.page i) = true
    · simp only [pagLoop, h, if_true]
      calc (pagLoop site fuel (i + 1) _ true).2.2 ≤ (i + 1) + fuel := ih (i + 1) _ true
        _ = i + (fuel + 1) := by omega
    · simp only [pagLoop]
      rw [if_neg h]
      exact Nat.le_add_right i (fuel + 1)

theorem scrollLoop_rounds_le (site : Site) :
    ∀ fuel r prev idle acc, (scrollLoop site fuel r prev idle acc).2 ≤ r - 1 + fuel := by
  intro fuel
  induction fuel with
  | zero => intro r prev idle acc; simp [scrollLoop]
  | succ fuel ih =>
    intro r prev idle acc
    simp only [scrollLoop]
    by_cases h : 2 ≤ scrollIdle site r prev idle acc
    · rw [if_pos h]; simp; omega
    · rw [if_neg h]
      calc (scrollLoop site fuel (r + 1) _ _ _).2 ≤ (r + 1) - 1 + fuel := ih (r + 1) _ _ _
        _ ≤ r - 1 + (fuel + 1) := by omega

/-! ### Claims C4 and C5 -/

/-- C4: pagination termination count.  If the `N`-th `has_next_page`
call answers false and every earlier one answers true (calls are issued
on pages 0, 1, …, so the `N`-th call inspects page `N - 1`), and `N - 1`
does not exceed the 200-iteration safety cap, then the harvest performs
exactly `N - 1` advances before leaving the pagination loop. -/
theorem pagination_advance_count (site : Site) (N : Nat) (hN : 1 ≤ N)
    (hcap : N - 1 ≤ 200)
    (htrue : ∀ j, j < N - 1 → has_next_page (site.page j) = true)
    (hfalse : has_next_page (site.page (N - 1)) = false) :
    (harvest_all_pages site).2.2.1 = N - 1 := by
  have h := pagLoop_advances site N htrue hfalse 200 0 (initAccum site) false
    (by omega) (by omega)
  unfold harvest_all_pages
  split <;> exact h

/-- The concrete three-page environment used by the pagination witnesses:
`has_next_page` answers true on pages 0 and 1 and false on page 2, a
scrollable container candidate is present, and every page shows an empty
table. -/
def siteW45 : Site where
  page := fun i => ⟨1, decide (2 ≤ i), 0, true⟩
  table := fun _ => ⟨[], []⟩
  containerCount := 1
  scrollTable := fun _ => ⟨[], []⟩

/-- Witness for `pagination_advance_count`: with `N = 3` (third
`has_next_page` call false), exactly 2 advances happen. -/
theorem pagination_advance_count_witness :
    (∀ j, j < 3 - 1 → has_next_page (siteW45.page j) = true) ∧
      has_next_page (siteW45.page (3 - 1)) = false ∧
      (harvest_all_pages siteW45).2.2.1 = 3 - 1 :=
  ⟨by decide, by decide,
    pagination_advance_count siteW45 3 (by decide) (by decide) (by decide) (by decide)⟩

/-- C5: strategy exclusivity.  If the very first `has_next_page` probe
answers true — which, given the loop's control flow, is the only way any
probe during the pagination phase can answer true — the harvest commits
to pagination: it reports `paginated` and executes zero scroll rounds,
regardless of any scrollable container candidates on the page. -/
theorem pagination_excludes_scroll (site : Site)
    (h : has_next_page (site.page 0) = true) :
    (harvest_all_pages site).2.1 = true ∧ (harvest_all_pages site).2.2.2 = 0 := by
  have hp : (pagResult site).2.1 = true := by
    show (pagLoop site (199 + 1) 0 (initAccum site) false).2.1 = true
    rw [pagLoop_succ_true site 199 0 (initAccum site) false h]
    exact pagLoop_true_persists site 199 1 _
  have hres : harvest_all_pages site =
      ((pagResult site).1.all_rows, true, (pagResult site).2.2, 0) := by
    unfold harvest_all_pages
    rw [hp]
    exact if_pos rfl
  rw [hres]
  exact ⟨rfl, rfl⟩

/-- Witness for `pagination_excludes_scroll` on the concrete three-page
environment (which does carry a scrollable container candidate). -/
theorem pagination_excludes_scroll_witness :
    has_next_page (siteW45.page 0) = true ∧ siteW45.containerCount = 1 ∧
      (harvest_all_pages siteW45).2.1 = true ∧ (harvest_all_pages siteW45).2.2.2 = 0 :=
  ⟨by decide, rfl,
    (pagination_excludes_scroll siteW45 (by decide)).1,
    (pagination_excludes_scroll siteW45 (by decide)).2⟩

/-! ### The scroll loop's exact termination round -/

theorem scrollLoop_succ (site : Site) (fuel r : Nat) (prev : Int) (idle : Nat) (acc : Accum) :
    scrollLoop site (fuel + 1) r prev idle acc =
      if 2 ≤ scrollIdle site r prev idle acc then (scrollMerge site r acc, r)
      else scrollLoop site fuel (r + 1) ((scrollMerge site r acc).all_rows.length : Int)
        (scrollIdle site r prev idle acc) (scrollMerge site r acc) := rfl

theorem scrollMerge_accum (site : Site) (acc0 : Accum) (r : Nat) (hr : 1 ≤ r) :
    scrollMerge site r (scrollAccum site acc0 (r - 1)) = scrollAccum site acc0 r := by
  obtain ⟨n, rfl⟩ : ∃ n, r = n + 1 := ⟨r - 1, by omega⟩
  simp only [scrollAccum, scrollMerge, Nat.add_sub_cancel]

theorem scrollLoop_invariant (site : Site) (acc0 : Accum) (K : Nat)
    (hK : 1 ≤ K) (hcap : K + 2 ≤ 100)
    (H1 : ∀ j, j < K → scrollTotals site acc0 j < scrollTotals site acc0 (j + 1))
    (H2 : ∀ j, K ≤ j → scrollTotals site acc0 j = scrollTotals site acc0 K) :
    ∀ fuel r, 1 ≤ r → r ≤ K + 2 → r + fuel = 101 →
      scrollLoop site fuel r
        (if r = 1 then (-1 : Int) else (scrollTotals site acc0 (r - 1) : Int))
        (if r ≤ K + 1 then 0 else 1)
        (scrollAccum site acc0 (r - 1)) =
      (scrollAccum site acc0 (K + 2), K + 2) := by
  intro fuel
  induction fuel with
  | zero =>
    intro r h1 h2 h3
    exfalso
    omega
  | succ fuel ih =>
    intro r h1 h2 h3
    have hmerge : scrollMerge site r (scrollAccum site acc0 (r - 1)) = scrollAccum site acc0 r :=
      scrollMerge_accum site acc0 r h1
    by_cases hc1 : r = 1
    · -- round 1: previous_count = -1 never matches a length, idle resets to 0
      have hprev : (if r = 1 then (-1 : Int) else (scrollTotals site acc0 (r - 1) : Int)) = -1 :=
        if_pos hc1
      have hidle : (if r ≤ K + 1 then (0 : Nat) else 1) = 0 := if_pos (by omega)
      have hIdleV : scrollIdle site r (-1) 0 (scrollAccum site acc0 (r - 1)) = 0 := by
        unfold scrollIdle
        rw [hmerge]
        exact if_neg (by omega)
      rw [hprev, hidle, scrollLoop_succ, hIdleV, if_neg (by norm_num : ¬ (2 : Nat) ≤ 0), hmerge]
      have hih := ih (r + 1) (by omega) (by omega) (by omega)
      rw [if_neg (by omega : ¬ r + 1 = 1), if_pos (by omega : r + 1 ≤ K + 1),
        Nat.add_sub_cancel] at hih
      simp only [scrollTotals] at hih
      exact hih
    · by_cases hc4 : r = K + 2
      · -- round K + 2: the second consecutive no-growth round; idle reaches 2
        have hprev : (if r = 1 then (-1 : Int) else (scrollTotals site acc0 (r - 1) : Int)) =
            (scrollTotals site acc0 (r - 1) : Int) := if_neg hc1
        have hidle : (if r ≤ K + 1 then (0 : Nat) else 1) = 1 := if_neg (by omega)
        have hIdleV : scrollIdle site r (scrollTotals site acc0 (r - 1) : Int) 1
            (scrollAccum site acc0 (r - 1)) = 2 := by
          unfold scrollIdle
          rw [hmerge]
          have e1 : scrollTotals site acc0 r = scrollTotals site acc0 K := H2 r (by omega)
          have e2 : scrollTotals site acc0 (r - 1) = scrollTotals site acc0 K :=
            H2 (r - 1) (by omega)
          have hcond : ((scrollAccum site acc0 r).all_rows.length : Int) =
              (scrollTotals site acc0 (r - 1) : Int) := by
            simp only [scrollTotals] at e1 e2 ⊢
            omega
          rw [if_pos hcond]
        rw [hprev, hidle, scrollLoop_succ, hIdleV, if_pos (le_refl 2), hmerge, hc4]
      · -- rounds 2 … K + 1: either strict growth resets idle, or (at K + 1)
        -- the first no-growth round raises it to 1; both continue
        have hprev : (if r = 1 then (-1 : Int) else (scrollTotals site acc0 (r - 1) : Int)) =
            (scrollTotals site acc0 (r - 1) : Int) := if_neg hc1
        have hidle : (if r ≤ K + 1 then (0 : Nat) else 1) = 0 := if_pos (by omega)
        by_cases hc3 : r = K + 1
        · have hIdleV : scrollIdle site r (scrollTotals site acc0 (r - 1) : Int) 0
              (scrollAccum site acc0 (r - 1)) = 1 := by
            unfold scrollIdle
            rw [hmerge]
            have e1 : scrollTotals site acc0 r = scrollTotals site acc0 K := H2 r (by omega)
            have e2 : scrollTotals site acc0 (r - 1) = scrollTotals site acc0 K := by
              have : r - 1 = K := by omega
              rw [this]
            have hcond : ((scrollAccum site acc0 r).all_rows.length : Int) =
                (scrollTotals site acc0 (r - 1) : Int) := by
              simp only [scrollTotals] at e1 e2 ⊢
              omega
            rw [if_pos hcond]
          rw [hprev, hidle, scrollLoop_succ, hIdleV,
            if_neg (by norm_num : ¬ (2 : Nat) ≤ 1), hmerge]
          have hih := ih (r + 1) (by omega) (by omega) (by omega)
          rw [if_neg (by omega : ¬ r + 1 = 1), if_neg (by omega : ¬ r + 1 ≤ K + 1),
            Nat.add_sub_cancel] at hih
          simp only [scrollTotals] at hih
          exact hih
        · have hgrow : scrollTotals site acc0 (r - 1) < scrollTotals site acc0 r := by
            have := H1 (r - 1) (by omega)
            have hr' : r - 1 + 1 = r := by omega
            rwa [hr'] at this
          have hIdleV : scrollIdle site r (scrollTotals site acc0 (r - 1) : Int) 0
              (scrollAccum site acc0 (r - 1)) = 0 := by
            unfold scrollIdle
            rw [hmerge]
            have hcond : ¬ ((scrollAccum site acc0 r).all_rows.length : Int) =
                (scrollTotals site acc0 (r - 1) : Int) := by
              simp only [scrollTotals] at hgrow ⊢
              omega
            rw [if_neg hcond]
          rw [hprev, hidle, scrollLoop_succ, hIdleV,
            if_neg (by norm_num : ¬ (2 : Nat) ≤ 0), hmerge]
          have hih := ih (r + 1) (by omega) (by omega) (by omega)
          rw [if_neg (by omega : ¬ r + 1 = 1), if_pos (by omega : r + 1 ≤ K + 1),
            Nat.add_sub_cancel] at hih
          simp only [scrollTotals] at hih
          exact hih

/-- C6: scroll termination and safety caps.  (1) If the accumulated
row-count totals grow strictly through round `K` (rounds are numbered
from 1; `K ≥ 1` since the first total has no predecessor to compare
against) and stop increasing afterwards, and `K + 2` fits under the cap,
the scroll loop runs exactly `K + idle_threshold = K + 2` rounds — it
terminates then and not earlier.  (2) Both loops are bounded by their
explicit iteration safety caps — at most 200 advances and at most 100
scroll rounds — for every environment, so `harvest_all_pages` always
halts even if `has_next_page` never answers false or the totals never
stabilize. -/
theorem scroll_termination_and_safety_caps :
    (∀ (site : Site) (acc0 : Accum) (K : Nat), 1 ≤ K → K + 2 ≤ 100 →
      (∀ j, j < K → scrollTotals site acc0 j < scrollTotals site acc0 (j + 1)) →
      (∀ j, K ≤ j → scrollTotals site acc0 j = scrollTotals site acc0 K) →
      scrollLoop site 100 1 (-1) 0 acc0 = (scrollAccum site acc0 (K + 2), K + 2)) ∧
    (∀ site : Site,
      (harvest_all_pages site).2.2.1 ≤ 200 ∧ (harvest_all_pages site).2.2.2 ≤ 100) := by
  constructor
  · intro site acc0 K hK hcap H1 H2
    have h := scrollLoop_invariant site acc0 K hK hcap H1 H2 100 1 (by omega) (by omega)
      (by omega)
    rw [if_pos rfl, if_pos (by omega : 1 ≤ K + 1)] at h
    exact h
  · intro site
    constructor
    · have h := pagLoop_adv_le site 200 0 (initAccum site) false
      unfold harvest_all_pages
      split <;> simpa [pagResult] using h
    · unfold harvest_all_pages
      split
      · simp
      · have h := scrollLoop_rounds_le site 100 1 (-1) 0 (pagResult site).1
        simpa [scrollResult] using h

/-- The constant infinite-scroll environment of the scroll-termination
witness: every scroll round shows the same six-body-row table, whose read
yields five rows (claim C10's off-by-one drops the sixth), so the totals
are 5, 5, 5, … and growth stops after round `K = 1`. -/
def siteW6 : Site where
  page := fun _ => ⟨0, false, 0, false⟩
  table := fun _ => ⟨[], []⟩
  containerCount := 1
  scrollTable := fun _ => ⟨[["k"]], [["1"], ["2"], ["3"], ["4"], ["5"], ["6"]]⟩

theorem scrollAccumW6_const :
    ∀ j, scrollAccum siteW6 ⟨[], []⟩ (j + 1) = scrollAccum siteW6 ⟨[], []⟩ 1 := by
  intro j
  induction j with
  | zero => rfl
  | succ n ihn =>
    have hstep : scrollAccum siteW6 ⟨[], []⟩ (n + 1 + 1) =
        (add_rows (scrollAccum siteW6 ⟨[], []⟩ (n + 1))
          (extract_table_rows (siteW6.scrollTable (n + 1 + 1)))).1 := rfl
    have hconst : siteW6.scrollTable (n + 1 + 1) = siteW6.scrollTable 1 := rfl
    have h1 : scrollAccum siteW6 ⟨[], []⟩ 1 =
        (add_rows (⟨[], []⟩ : Accum) (extract_table_rows (siteW6.scrollTable 1))).1 := rfl
    rw [hstep, ihn, hconst, h1]
    exact foldl_addStep_idem
      (extract_table_rows (siteW6.scrollTable 1)) ⟨[], []⟩

/-- Witness for `scroll_termination_and_safety_caps`: on the constant
environment the totals are 5 from round 1 on, so with `K = 1` the loop
executes exactly `1 + 2 = 3` rounds. -/
theorem scroll_termination_witness :
    (∀ j, j < 1 → scrollTotals siteW6 ⟨[], []⟩ j < scrollTotals siteW6 ⟨[], []⟩ (j + 1)) ∧
      (∀ j, 1 ≤ j → scrollTotals siteW6 ⟨[], []⟩ j = scrollTotals siteW6 ⟨[], []⟩ 1) ∧
      scrollLoop siteW6 100 1 (-1) 0 ⟨[], []⟩ = (scrollAccum siteW6 ⟨[], []⟩ 3, 3) := by
  have h1 : ∀ j, j < 1 → scrollTotals siteW6 ⟨[], []⟩ j < scrollTotals siteW6 ⟨[], []⟩ (j + 1) := by
    intro j hj
    have hj0 : j = 0 := by omega
    subst hj0
    decide
  have h2 : ∀ j, 1 ≤ j → scrollTotals siteW6 ⟨[], []⟩ j = scrollTotals siteW6 ⟨[], []⟩ 1 := by
    intro j hj
    obtain ⟨n, rfl⟩ : ∃ n, j = n + 1 := ⟨j - 1, by omega⟩
    unfold scrollTotals
    rw [scrollAccumW6_const n]
  refine ⟨h1, h2, ?_⟩
  exact scroll_termination_and_safety_caps.1 siteW6 ⟨[], []⟩ 1 (by omega) (by omega) h1 h2

